import Mathlib

/-!
Verification of the retry/backoff wrapper and the section-splitting text
parser of the AI-WEEK repository (src/GeminiLLM/gemini_llm.py,
src/YandexLLM/yandex_llm.py, src/CerebrasLLM/cerebras_llm.py, src/main.py).

Strings are modelled as `List Char`; Python's `str.find`, slicing and
`str.strip` are embedded as total Lean functions with Python's semantics.
-/

set_option autoImplicit false

namespace AiWeek

/-- Python's whitespace class for `str.strip` restricted to the ASCII
whitespace characters (space, tab, newline, carriage return, vertical tab,
form feed); no other whitespace occurs in the texts considered here. -/
def pyIsSpace (c : Char) : Bool :=
  c == ' ' || c == '\t' || c == '\n' || c == '\r' || c == '\x0b' || c == '\x0c'

/-- Embedding of Python's `s.strip()`: remove leading and trailing
whitespace. -/
def pyStrip (s : List Char) : List Char :=
  ((s.dropWhile pyIsSpace).reverse.dropWhile pyIsSpace).reverse

/-- Embedding of Python's `s.find(pat, start)`: the least index `i` with
`start ≤ i ≤ s.length` at which `pat` occurs as a substring of `s`
(`none` plays the role of Python's `-1`). -/
def pyFind (s pat : List Char) (start : Nat) : Option Nat :=
  (List.range (s.length + 1)).find? (fun i => start ≤ i && (s.drop i).take pat.length == pat)

/-- Embedding of Python's slice `s[a:b]` (with `0 ≤ a, b`, out-of-range
indices clamped, empty when `a ≥ b`). -/
def pySlice (s : List Char) (a b : Nat) : List Char :=
  (s.take b).drop a

/-! ## RetryExecutor: `safe_generate` (src/GeminiLLM/gemini_llm.py lines 100-107)

The wrapped operation is modelled as a function from the (0-based) attempt
index to `Except String String`: `Except.ok t` is a normal return of text
`t`, `Except.error e` is a raised exception with message `e`.  The loop's
observable behaviour is recorded in a trace: the returned value, the number
of invocations of the operation, and the sequence of `time.sleep` durations
(in seconds) actually performed, in order. -/

/-- Observable trace of one run of the retry loop. -/
structure RetryTrace where
  result : Option (List Char)
  calls : Nat
  waits : List Nat
  deriving DecidableEq, Repr

/-- The loop body of `safe_generate`: `for attempt in range(...)` starting
at attempt index `attempt` with `fuel` iterations remaining.  On success the
text is returned at once; on failure `wait_time = 2 ** attempt` is slept
(this happens on every failed attempt, the last one included) and the next
iteration runs; when the range is exhausted the loop falls through to
`return None`. -/
def safeGenerateAux (op : Nat → Except (List Char) (List Char)) :
    Nat → Nat → RetryTrace
  | _, 0 => ⟨none, 0, []⟩
  | attempt, fuel + 1 =>
    match op attempt with
    | Except.ok t => ⟨some t, 1, []⟩
    | Except.error _ =>
      let r := safeGenerateAux op (attempt + 1) fuel
      ⟨r.result, r.calls + 1, 2 ^ attempt :: r.waits⟩

/-- `safe_generate` generalized over the attempt cap (the source fixes the
cap to the constant `MAX_RETRIES`). -/
def safeGenerateN (op : Nat → Except (List Char) (List Char)) (maxRetries : Nat) :
    RetryTrace :=
  safeGenerateAux op 0 maxRetries

/-- `MAX_RETRIES = 5` (src/GeminiLLM/gemini_llm.py line 85). -/
def MAX_RETRIES : Nat := 5

/-- `safe_generate` exactly as in the source: the loop with the cap
`MAX_RETRIES`. -/
def safe_generate (op : Nat → Except (List Char) (List Char)) : RetryTrace :=
  safeGenerateN op MAX_RETRIES

/-! ## SectionExtractor: the section-splitting loop

The same loop occurs, copy-pasted, in src/GeminiLLM/gemini_llm.py lines
160-175, src/YandexLLM/yandex_llm.py lines 148-160 and src/main.py lines
75-87, always over the same hard-coded four-element `sections` list.
`extractAux`/`extract` is that loop with the text and the header list
abstracted as parameters — the spec's `SectionExtractor.extract`.  It is
transcribed from the Gemini copy:

    start = 0
    for i, header in enumerate(sections):
        pos = text.find(header, start)
        if pos == -1:
            continue
        next_pos = len(text)
        if i + 1 < len(sections):
            next_pos = text.find(sections[i + 1], pos)
            if next_pos == -1:
                next_pos = len(text)
        content = text[pos + len(header):next_pos].strip()
        print(f"...")          -- modelled as emitting the (header, content) pair
        start = next_pos

The recursion is over the header list; the cursor `start` is the extra
argument. -/

/-- The shared section-splitting loop, emitting the printed
(header, trimmed content) pairs in order. -/
def extractAux (text : List Char) : List (List Char) → Nat → List (List Char × List Char)
  | [], _ => []
  | header :: rest, start =>
    match pyFind text header start with
    | none => extractAux text rest start
    | some pos =>
      let next_pos :=
        match rest with
        | [] => text.length
        | nh :: _ =>
          match pyFind text nh pos with
          | none => text.length
          | some q => q
      (header, pyStrip (pySlice text (pos + header.length) next_pos)) ::
        extractAux text rest next_pos

/-- `extract(text, headers)`: the loop started with cursor 0. -/
def extract (text : List Char) (headers : List (List Char)) : List (List Char × List Char) :=
  extractAux text headers 0

/-- The four-element `sections` list of src/GeminiLLM/gemini_llm.py lines
153-158. -/
def geminiSections : List (List Char) :=
  ["Техническое описание:".data,
   "Необходимые технологии и библиотеки:".data,
   "Этапы реализации:".data,
   "Оценка сложности:".data]

/-- The section-splitting loop as written in `generate_projects`
(src/GeminiLLM/gemini_llm.py lines 160-175), transcribed separately from
its copies in the other files. -/
def geminiSplitAux (text : List Char) : List (List Char) → Nat → List (List Char × List Char)
  | [], _ => []
  | header :: rest, start =>
    match pyFind text header start with
    | none => geminiSplitAux text rest start
    | some pos =>
      let next_pos :=
        match rest with
        | [] => text.length
        | nh :: _ =>
          match pyFind text nh pos with
          | none => text.length
          | some q => q
      (header, pyStrip (pySlice text (pos + header.length) next_pos)) ::
        geminiSplitAux text rest next_pos

/-- The per-model section splitting performed by `generate_projects` on one
response text. -/
def generate_projects_split (text : List Char) : List (List Char × List Char) :=
  geminiSplitAux text geminiSections 0

/-- The four-element `sections` list of src/YandexLLM/yandex_llm.py lines
146-147. -/
def yandexSections : List (List Char) :=
  ["Техническое описание:".data,
   "Необходимые технологии и библиотеки:".data,
   "Этапы реализации:".data,
   "Оценка сложности:".data]

/-- The section-splitting loop as written in `generate_and_print_projects`
(src/YandexLLM/yandex_llm.py lines 148-160), transcribed separately. -/
def yandexSplitAux (text : List Char) : List (List Char) → Nat → List (List Char × List Char)
  | [], _ => []
  | header :: rest, start =>
    match pyFind text header start with
    | none => yandexSplitAux text rest start
    | some pos =>
      let next_pos :=
        match rest with
        | [] => text.length
        | nh :: _ =>
          match pyFind text nh pos with
          | none => text.length
          | some q => q
      (header, pyStrip (pySlice text (pos + header.length) next_pos)) ::
        yandexSplitAux text rest next_pos

/-- The per-idea section splitting performed by `generate_and_print_projects`
on one response text. -/
def generate_and_print_projects_split (text : List Char) : List (List Char × List Char) :=
  yandexSplitAux text yandexSections 0

/-- The four-element `sections` list of src/main.py lines 73-74. -/
def mainSections : List (List Char) :=
  ["Техническое описание:".data,
   "Необходимые технологии и библиотеки:".data,
   "Этапы реализации:".data,
   "Оценка сложности:".data]

/-- The section-splitting loop as written at module level in src/main.py
lines 75-87, transcribed separately. -/
def mainSplitAux (text : List Char) : List (List Char) → Nat → List (List Char × List Char)
  | [], _ => []
  | header :: rest, start =>
    match pyFind text header start with
    | none => mainSplitAux text rest start
    | some pos =>
      let next_pos :=
        match rest with
        | [] => text.length
        | nh :: _ =>
          match pyFind text nh pos with
          | none => text.length
          | some q => q
      (header, pyStrip (pySlice text (pos + header.length) next_pos)) ::
        mainSplitAux text rest next_pos

/-- The section splitting performed by the src/main.py module-level loop on
one response text. -/
def main_module_split (text : List Char) : List (List Char × List Char) :=
  mainSplitAux text mainSections 0

/-! ## The Cerebras variant: `pretty_print_projects`
(src/CerebrasLLM/cerebras_llm.py lines 69-116)

Record boundaries come from `re.finditer(r"ИДЕЯ (\d+):", text)`; the
resulting `(number, start)` pairs are filtered to `1 ≤ number ≤ 10`; each
record's text is the slice up to the next retained match (or end of text),
stripped; empty records and records equal to their bare marker are skipped;
each remaining record is section-split with the same loop as above except
that a pair is emitted only when the trimmed content is non-empty
(`if content:`). -/

/-- The literal `"ИДЕЯ "` that opens a record marker. -/
def ideaLabel : List Char := "ИДЕЯ ".data

/-- Attempt to match the regex `ИДЕЯ (\d+):` at the head of `s`; on success
return the integer value of the digit group and the length of the whole
match.  `\d+` is modelled as one or more ASCII digits (greedy matching of
`\d+` followed by a mandatory `:` is equivalent to `takeWhile isDigit`,
since any shorter digit prefix is followed by a digit, not `:`). -/
def matchMarker (s : List Char) : Option (Nat × Nat) :=
  if s.take ideaLabel.length = ideaLabel then
    let afterLabel := s.drop ideaLabel.length
    let ds := afterLabel.takeWhile Char.isDigit
    if ds = [] then none
    else
      match afterLabel.drop ds.length with
      | ':' :: _ =>
        some (ds.foldl (fun a c => a * 10 + (c.toNat - 48)) 0,
              ideaLabel.length + ds.length + 1)
      | _ => none
  else none

/-- Left-to-right scan embedding `re.finditer`: at each position try the
marker pattern; on a match record `(number, position)` and resume after the
matched region, otherwise advance one character.  `fuel` bounds the
recursion; every step consumes at least one character, so `s.length` fuel
is enough. -/
def scanMarkersAux : Nat → List Char → Nat → List (Nat × Nat)
  | 0, _, _ => []
  | _ + 1, [], _ => []
  | fuel + 1, c :: rest, i =>
    match matchMarker (c :: rest) with
    | some (n, len) =>
      (n, i) :: scanMarkersAux fuel ((c :: rest).drop len) (i + len)
    | none => scanMarkersAux fuel rest (i + 1)

/-- `project_positions` before range filtering: the list of
`(int(m.group(1)), m.start())` over the matches of `ИДЕЯ (\d+):`. -/
def scanMarkers (text : List Char) : List (Nat × Nat) :=
  scanMarkersAux text.length text 0

/-- The retained record positions:
`[p for p in project_positions if 1 <= p[0] <= 10]`. -/
def projectPositions (text : List Char) : List (Nat × Nat) :=
  (scanMarkers text).filter (fun p => 1 ≤ p.1 && p.1 ≤ 10)

/-- The record loop of `pretty_print_projects`: slice each record's text up
to the next retained position (or end of text), strip it, and skip records
that are empty or equal to their bare `f"ИДЕЯ {proj_num}:"` marker. -/
def buildRecords (text : List Char) : List (Nat × Nat) → List (Nat × List Char)
  | [] => []
  | (n, pos) :: rest =>
    let end_pos :=
      match rest with
      | [] => text.length
      | (_, q) :: _ => q
    let proj_text := pyStrip (pySlice text pos end_pos)
    if proj_text = [] ∨ proj_text = ideaLabel ++ (Nat.repr n).data ++ [':'] then
      buildRecords text rest
    else
      (n, proj_text) :: buildRecords text rest

/-- The four-element `sections` list of src/CerebrasLLM/cerebras_llm.py
lines 80-85. -/
def cerebrasSections : List (List Char) :=
  ["Техническое описание:".data,
   "Необходимые технологии и библиотеки:".data,
   "Этапы реализации:".data,
   "Оценка сложности:".data]

/-- The section-splitting loop of `pretty_print_projects`
(src/CerebrasLLM/cerebras_llm.py lines 103-116): identical to the shared
loop except that the pair is printed only when the trimmed content is
non-empty (`if content:`); the cursor still advances to `next_pos` either
way. -/
def cerebrasSplitAux (text : List Char) : List (List Char) → Nat → List (List Char × List Char)
  | [], _ => []
  | header :: rest, start =>
    match pyFind text header start with
    | none => cerebrasSplitAux text rest start
    | some pos =>
      let next_pos :=
        match rest with
        | [] => text.length
        | nh :: _ =>
          match pyFind text nh pos with
          | none => text.length
          | some q => q
      let content := pyStrip (pySlice text (pos + header.length) next_pos)
      if content = [] then cerebrasSplitAux text rest next_pos
      else (header, content) :: cerebrasSplitAux text rest next_pos

/-- `pretty_print_projects` as the sequence of printed records: each record
carries its project number and the (header, content) pairs printed for
it. -/
def pretty_print_projects (text : List Char) : List (Nat × List (List Char × List Char)) :=
  (buildRecords text (projectPositions text)).map
    (fun r => (r.1, cerebrasSplitAux r.2 cerebrasSections 0))

/-! ## Occurrence of a pattern in a text -/

/-- `pat` occurs as a substring of `s` at index `i`. -/
def occursAt (s pat : List Char) (i : Nat) : Prop :=
  i + pat.length ≤ s.length ∧ (s.drop i).take pat.length = pat

instance occursAt.decide (s pat : List Char) (i : Nat) : Decidable (occursAt s pat i) := by
  unfold occursAt
  infer_instance

/-- Number of indices at which `pat` occurs in `s`. -/
def occCount (s pat : List Char) : Nat :=
  ((List.range (s.length + 1)).filter (fun i => decide (occursAt s pat i))).length

theorem take_eq_imp_le {s pat : List Char} {i : Nat} (hi : i ≤ s.length)
    (h : (s.drop i).take pat.length = pat) : i + pat.length ≤ s.length := by
  have hlen : ((s.drop i).take pat.length).length = pat.length := by rw [h]
  simp only [List.length_take, List.length_drop] at hlen
  rcases Nat.le_total pat.length (s.length - i) with hle | hle
  · omega
  · rw [Nat.min_eq_right hle] at hlen
    omega

/-- Soundness of `pyFind`: a returned index is at or after `start` and is an
occurrence of the pattern. -/
theorem pyFind_sound {s pat : List Char} {start i : Nat}
    (h : pyFind s pat start = some i) : start ≤ i ∧ occursAt s pat i := by
  have hp := List.find?_some h
  have hmem := List.mem_of_find?_eq_some h
  have hi : i ≤ s.length := by
    have := List.mem_range.mp hmem
    omega
  simp only [Bool.and_eq_true, decide_eq_true_eq, beq_iff_eq] at hp
  exact ⟨hp.1, take_eq_imp_le hi hp.2, hp.2⟩

/-- Completeness of `pyFind`: if the pattern occurs at or after `start`,
the search succeeds. -/
theorem pyFind_isSome {s pat : List Char} {start q : Nat}
    (hq : occursAt s pat q) (hstart : start ≤ q) : ∃ i, pyFind s pat start = some i := by
  have hqs : q ≤ s.length := by
    have := hq.1
    omega
  have : (List.find? (fun i => start ≤ i && (s.drop i).take pat.length == pat)
      (List.range (s.length + 1))).isSome := by
    rw [List.find?_isSome]
    refine ⟨q, List.mem_range.mpr (by omega), ?_⟩
    simp only [Bool.and_eq_true, decide_eq_true_eq, beq_iff_eq]
    exact ⟨hstart, hq.2⟩
  rcases Option.isSome_iff_exists.mp this with ⟨i, hi⟩
  exact ⟨i, hi⟩

/-- If the pattern occurs exactly once in `s`, any two occurrence indices
coincide. -/
theorem occursAt_unique {s pat : List Char} (h : occCount s pat = 1) :
    ∀ i j, occursAt s pat i → occursAt s pat j → i = j := by
  intro i j hi hj
  rcases List.length_eq_one.mp h with ⟨a, ha⟩
  have hmem : ∀ k, occursAt s pat k →
      k ∈ (List.range (s.length + 1)).filter (fun i => decide (occursAt s pat i)) := by
    intro k hk
    refine List.mem_filter.mpr ⟨List.mem_range.mpr ?_, by simpa using hk⟩
    have := hk.1
    omega
  have hia := hmem i hi
  have hja := hmem j hj
  rw [ha, List.mem_singleton] at hia hja
  omega

/-! ## Retry loop lemmas -/

/-- A run of the loop in which every attempted invocation fails: the result
is `none`, the operation is invoked once per loop iteration, and after every
failed attempt (the last one included) a sleep of `2 ^ attemptIndex` seconds
is performed. -/
theorem safeGenerateAux_all_fail (op : Nat → Except (List Char) (List Char))
    (hop : ∀ i, ∃ e, op i = Except.error e) :
    ∀ fuel a, safeGenerateAux op a fuel =
      ⟨none, fuel, (List.range fuel).map (fun j => 2 ^ (a + j))⟩ := by
  intro fuel
  induction fuel with
  | zero => intro a; simp [safeGenerateAux]
  | succ n ih =>
    intro a
    rcases hop a with ⟨e, he⟩
    rw [safeGenerateAux, he, ih (a + 1)]
    have : (List.range (n + 1)).map (fun j => 2 ^ (a + j)) =
        2 ^ a :: (List.range n).map (fun j => 2 ^ (a + 1 + j)) := by
      rw [List.range_succ_eq_map]
      simp only [List.map_cons, List.map_map]
      refine congrArg (2 ^ (a + 0) :: List.map · (List.range n)) ?_
      funext j
      simp only [Function.comp]
      congr 1
      omega
    simp [this]

/-- A run in which the first `m` attempted invocations fail and the next
succeeds with text `t`: the loop stops right after the success, having
invoked the operation `m + 1` times and slept once per failed attempt. -/
theorem safeGenerateAux_first_success (op : Nat → Except (List Char) (List Char)) :
    ∀ (fuel m a : Nat) (t : List Char), m < fuel →
      (∀ i, i < m → ∃ e, op (a + i) = Except.error e) →
      op (a + m) = Except.ok t →
      safeGenerateAux op a fuel =
        ⟨some t, m + 1, (List.range m).map (fun j => 2 ^ (a + j))⟩ := by
  intro fuel
  induction fuel with
  | zero => intro m a t hm; omega
  | succ n ih =>
    intro m a t hm hfail hok
    match m with
    | 0 =>
      rw [safeGenerateAux]
      rw [Nat.add_zero] at hok
      rw [hok]
      simp
    | m' + 1 =>
      rcases hfail 0 (by omega) with ⟨e, he⟩
      rw [Nat.add_zero] at he
      rw [safeGenerateAux, he]
      have hrec := ih m' (a + 1) t (by omega)
        (fun i hi => by
          rcases hfail (i + 1) (by omega) with ⟨e', he'⟩
          refine ⟨e', ?_⟩
          rw [show a + 1 + i = a + (i + 1) from by omega]
          exact he')
        (by
          rw [show a + 1 + m' = a + (m' + 1) from by omega]
          exact hok)
      rw [hrec]
      have : (List.range (m' + 1)).map (fun j => 2 ^ (a + j)) =
          2 ^ a :: (List.range m').map (fun j => 2 ^ (a + 1 + j)) := by
        rw [List.range_succ_eq_map]
        simp only [List.map_cons, List.map_map]
        refine congrArg (2 ^ (a + 0) :: List.map · (List.range m')) ?_
        funext j
        simp only [Function.comp]
        congr 1
        omega
      simp [this]

/-- Sum of the exponential backoff waits `2 ^ 0, …, 2 ^ (n-1)`. -/
theorem backoff_sum (n : Nat) :
    ((List.range n).map (fun j => 2 ^ j)).sum = 2 ^ n - 1 := by
  induction n with
  | zero => simp
  | succ m ih =>
    rw [List.range_succ, List.map_append, List.sum_append, ih]
    have : (1 : Nat) ≤ 2 ^ m := Nat.one_le_two_pow
    simp [Nat.pow_succ]
    omega

/-! ## Claims about the retry loop -/

/-- C2: for every attempt cap `n ≥ 1` and every operation that fails on all
invocations, `safe_generate` invokes the operation exactly `n` times and
returns the "no result" sentinel `None`; it never raises (the embedding is a
total function whose failures are values). -/
theorem c2_retry_exhaustion (op : Nat → Except (List Char) (List Char)) (n : Nat)
    (_hn : 1 ≤ n) (hop : ∀ i, ∃ e, op i = Except.error e) :
    (safeGenerateN op n).result = none ∧ (safeGenerateN op n).calls = n := by
  rw [safeGenerateN, safeGenerateAux_all_fail op hop n 0]
  exact ⟨rfl, rfl⟩

theorem c2_retry_exhaustion_witness :
    (safeGenerateN (fun _ => Except.error "err".data) MAX_RETRIES).result = none ∧
      (safeGenerateN (fun _ => Except.error "err".data) MAX_RETRIES).calls = MAX_RETRIES :=
  c2_retry_exhaustion (fun _ => Except.error "err".data) MAX_RETRIES (by decide)
    (fun _ => ⟨"err".data, rfl⟩)

/-- C3: for every attempt cap `n ≥ 1` and every operation that first
succeeds on its `k`-th invocation (1-indexed, `k ≤ n`), `safe_generate`
invokes the operation exactly `k` times and returns the success text
unchanged; the call count `k` shows the operation is never invoked again
after the success. -/
theorem c3_retry_success (op : Nat → Except (List Char) (List Char)) (n k : Nat)
    (t : List Char) (hk : 1 ≤ k) (hkn : k ≤ n)
    (hfail : ∀ i, i < k - 1 → ∃ e, op i = Except.error e)
    (hok : op (k - 1) = Except.ok t) :
    (safeGenerateN op n).result = some t ∧ (safeGenerateN op n).calls = k := by
  have h := safeGenerateAux_first_success op n (k - 1) 0 t (by omega)
    (fun i hi => by simpa using hfail i hi) (by simpa using hok)
  rw [safeGenerateN, h]
  refine ⟨rfl, ?_⟩
  simp
  omega

theorem c3_retry_success_witness :
    (safeGenerateN (fun i => if i = 2 then Except.ok "yes".data else Except.error "e".data)
        MAX_RETRIES).result = some "yes".data ∧
      (safeGenerateN (fun i => if i = 2 then Except.ok "yes".data else Except.error "e".data)
        MAX_RETRIES).calls = 3 :=
  c3_retry_success (fun i => if i = 2 then Except.ok "yes".data else Except.error "e".data)
    MAX_RETRIES 3 "yes".data (by decide) (by decide)
    (fun i hi => ⟨"e".data, by interval_cases i <;> rfl⟩) rfl

/-- C4 counterexample: with an attempt cap of 1 and an always-failing
operation the loop performs exactly one attempt but nevertheless performs
one backoff sleep, of `2 ^ 0 = 1` second: the code sleeps after the final
failed attempt, so the claim "no wait after the final attempt" is false. -/
theorem c4_counterexample :
    (safeGenerateN (fun _ => Except.error "err".data) 1).calls = 1 ∧
      (safeGenerateN (fun _ => Except.error "err".data) 1).waits = [1] ∧
      ([1] : List Nat) ≠ [] :=
  ⟨rfl, rfl, List.cons_ne_nil 1 []⟩

/-- C4 amended: the retry loop sleeps after every failed attempt, the final
one included: with cap `n ≥ 1` and an always-failing operation the total
blocking time is `2^0 + 2^1 + … + 2^(n-1) = 2^n - 1` seconds, and with cap
1 it performs exactly one attempt and one 1-second sleep. -/
theorem c4_backoff_total (op : Nat → Except (List Char) (List Char)) (n : Nat)
    (hn : 1 ≤ n) (hop : ∀ i, ∃ e, op i = Except.error e) :
    (safeGenerateN op n).waits.sum = 2 ^ n - 1 ∧
      (safeGenerateN op n).calls = n ∧
      (n = 1 → (safeGenerateN op n).waits = [1]) := by
  rw [safeGenerateN, safeGenerateAux_all_fail op hop n 0]
  simp only [Nat.zero_add]
  refine ⟨backoff_sum n, trivial, ?_⟩
  rintro rfl
  rfl

theorem c4_backoff_total_witness :
    (safeGenerateN (fun _ => Except.error "err".data) MAX_RETRIES).waits.sum =
        2 ^ MAX_RETRIES - 1 ∧
      (safeGenerateN (fun _ => Except.error "err".data) MAX_RETRIES).calls = MAX_RETRIES ∧
      (MAX_RETRIES = 1 →
        (safeGenerateN (fun _ => Except.error "err".data) MAX_RETRIES).waits = [1]) :=
  c4_backoff_total (fun _ => Except.error "err".data) MAX_RETRIES (by decide)
    (fun _ => ⟨"err".data, rfl⟩)

/-- C5 counterexample: a five-attempt run against an always-failing
operation sleeps 1, 2, 4, 8, 16 seconds (indices are 0-based in
`2 ** attempt`), not the 2, 4, 8, 16, 32 seconds stated by the claim. -/
theorem c5_counterexample :
    (safeGenerateN (fun _ => Except.error "e".data) 5).waits = [1, 2, 4, 8, 16] ∧
      ([1, 2, 4, 8, 16] : List Nat) ≠ [2, 4, 8, 16, 32] := by
  refine ⟨rfl, by decide⟩

/-- C5 amended: after the failed attempt with 0-based index `i` the loop
waits exactly `2 ^ i` seconds, so an always-failing run with cap `n` waits
`2^0, 2^1, …, 2^(n-1)` seconds — for five attempts: 1, 2, 4, 8, 16 seconds
(the claim's 2, 4, 8, 16, 32 corresponds to `2 ^ attemptNumber` with
1-based numbering, which is not what the code computes). -/
theorem c5_backoff_waits (op : Nat → Except (List Char) (List Char)) (n : Nat)
    (hop : ∀ i, ∃ e, op i = Except.error e) :
    (safeGenerateN op n).waits = (List.range n).map (fun i => 2 ^ i) := by
  rw [safeGenerateN, safeGenerateAux_all_fail op hop n 0]
  simp

theorem c5_backoff_waits_witness :
    (safeGenerateN (fun _ => Except.error "e".data) 5).waits =
      (List.range 5).map (fun i => 2 ^ i) :=
  c5_backoff_waits (fun _ => Except.error "e".data) 5 (fun _ => ⟨"e".data, rfl⟩)

/-! ## Claims about the section extractor -/

/-- C1 counterexample: on `extract("A:body1 C:body3", ["A:","B:","C:"])`
neither of the entries claimed by the spec is produced: there is no entry
`"A:" → "body1"` and no entry for `"C:"` at all.  The boundary for `"A:"`
is the next header *in the list* (`"B:"`), which is absent, so the body of
`"A:"` runs to the end of the text and the cursor jumps to the end of the
text, after which `"C:"` can no longer be found. -/
theorem c1_counterexample :
    ("A:".data, "body1".data) ∉
        extract "A:body1 C:body3".data ["A:".data, "B:".data, "C:".data] ∧
      ∀ b, ("C:".data, b) ∉
        extract "A:body1 C:body3".data ["A:".data, "B:".data, "C:".data] := by
  have h : extract "A:body1 C:body3".data ["A:".data, "B:".data, "C:".data] =
      [("A:".data, "body1 C:body3".data)] := by decide
  rw [h]
  constructor
  · intro hmem
    rw [List.mem_singleton] at hmem
    have hsnd : "body1".data = "body1 C:body3".data := congrArg Prod.snd hmem
    exact absurd hsnd (by decide)
  · intro b hmem
    rw [List.mem_singleton] at hmem
    have hfst : "C:".data = "A:".data := congrArg Prod.fst hmem
    exact absurd hfst (by decide)

/-- C1 amended: with a middle header absent, the boundary of the preceding
found header is the end of the text (the end position is searched for the
next header *in the list*, not the next found one), and the cursor advances
to that boundary, so the later header is not found either:
`extract("A:body1 C:body3", ["A:","B:","C:"])` yields exactly one entry,
`"A:" → "body1 C:body3"`. -/
theorem c1_amended :
    extract "A:body1 C:body3".data ["A:".data, "B:".data, "C:".data] =
      [("A:".data, "body1 C:body3".data)] := by decide

/-- C10: the three copy-pasted section-splitting loops — in
`generate_projects` (GeminiLLM), in `generate_and_print_projects`
(YandexLLM) and at module level in main.py — compute exactly the same
sequence of (header, trimmed content) pairs on every input text over the
same four-header list. -/
theorem c10_split_loops_equal (text : List Char) :
    generate_projects_split text = generate_and_print_projects_split text ∧
      generate_and_print_projects_split text = main_module_split text := by
  have hgy : ∀ hs s, geminiSplitAux text hs s = yandexSplitAux text hs s := by
    intro hs
    induction hs with
    | nil => intro s; rfl
    | cons h rest ih =>
      intro s
      rw [geminiSplitAux, yandexSplitAux]
      cases pyFind text h s with
      | none => exact ih s
      | some pos => simp only [ih]
  have hym : ∀ hs s, yandexSplitAux text hs s = mainSplitAux text hs s := by
    intro hs
    induction hs with
    | nil => intro s; rfl
    | cons h rest ih =>
      intro s
      rw [yandexSplitAux, mainSplitAux]
      cases pyFind text h s with
      | none => exact ih s
      | some pos => simp only [ih]
  have hsec : geminiSections = yandexSections ∧ yandexSections = mainSections := ⟨rfl, rfl⟩
  constructor
  · rw [generate_projects_split, generate_and_print_projects_split, hsec.1]
    exact hgy yandexSections 0
  · rw [generate_and_print_projects_split, main_module_split, hsec.2]
    exact hym mainSections 0

/-- The headers emitted by the loop form a subsequence of the input header
list, whatever the cursor. -/
theorem extractAux_fst_sublist (text : List Char) :
    ∀ (hs : List (List Char)) (s : Nat),
      ((extractAux text hs s).map Prod.fst).Sublist hs := by
  intro hs
  induction hs with
  | nil => intro s; simp [extractAux]
  | cons h rest ih =>
    intro s
    rw [extractAux]
    cases pyFind text h s with
    | none => exact (ih s).cons h
    | some pos =>
      simp only [List.map_cons]
      exact (ih _).cons₂ h

/-- Every pair emitted by the loop has a header that occurs as a substring
of the text. -/
theorem extractAux_mem_occurs (text : List Char) :
    ∀ (hs : List (List Char)) (s : Nat) (p : List Char × List Char),
      p ∈ extractAux text hs s → ∃ i, occursAt text p.1 i := by
  intro hs
  induction hs with
  | nil => intro s p hp; simp [extractAux] at hp
  | cons h rest ih =>
    intro s p hp
    rw [extractAux] at hp
    cases hfind : pyFind text h s with
    | none =>
      rw [hfind] at hp
      exact ih s p hp
    | some pos =>
      rw [hfind] at hp
      rcases List.mem_cons.mp hp with hhead | htail
      · subst hhead
        exact ⟨pos, (pyFind_sound hfind).2⟩
      · exact ih _ p htail

/-- C7: `extract` is a total operation (embedded as a total function — the
source loop performs no raising operation), it emits an entry only for
headers that occur in the text, and the emitted headers keep the relative
order of the input label list (they form a subsequence of it); a label
absent from the text contributes no entry, since an emitted label occurs in
the text. -/
theorem c7_extract_invariants (text : List Char) (headers : List (List Char)) :
    ((extract text headers).map Prod.fst).Sublist headers ∧
      ∀ p ∈ extract text headers, ∃ i, occursAt text p.1 i :=
  ⟨extractAux_fst_sublist text headers 0,
   fun p hp => extractAux_mem_occurs text headers 0 p hp⟩

theorem c7_extract_invariants_witness :
    (((extract "A:x B:y".data ["A:".data, "B:".data]).map Prod.fst).Sublist
        ["A:".data, "B:".data]) ∧
      ∃ i, occursAt "A:x B:y".data "A:".data i :=
  ⟨(c7_extract_invariants "A:x B:y".data ["A:".data, "B:".data]).1,
   (c7_extract_invariants "A:x B:y".data ["A:".data, "B:".data]).2
     ("A:".data, "x".data) (by decide)⟩

/-- Every record produced by the record loop starts at one of the supplied
marker positions, with the same project number. -/
theorem buildRecords_mem (text : List Char) :
    ∀ (ps : List (Nat × Nat)) (r : Nat × List Char),
      r ∈ buildRecords text ps → ∃ pos, (r.1, pos) ∈ ps := by
  intro ps
  induction ps with
  | nil => intro r hr; simp [buildRecords] at hr
  | cons p rest ih =>
    intro r hr
    obtain ⟨n, pos⟩ := p
    simp only [buildRecords] at hr
    split at hr
    · rcases ih r hr with ⟨q, hq⟩
      exact ⟨q, List.mem_cons_of_mem _ hq⟩
    · rcases List.mem_cons.mp hr with hhead | htail
      · subst hhead
        exact ⟨pos, List.mem_cons_self _ _⟩
      · rcases ih r htail with ⟨q, hq⟩
        exact ⟨q, List.mem_cons_of_mem _ hq⟩

/-- C8: every record printed by `pretty_print_projects` begins at a marker
`ИДЕЯ <integer>:` found in the text, and its integer lies between 1 and 10
inclusive — markers with an out-of-range integer are filtered out before
section-splitting and never begin a printed record. -/
theorem c8_record_markers (text : List Char) (r : Nat × List (List Char × List Char))
    (hr : r ∈ pretty_print_projects text) :
    1 ≤ r.1 ∧ r.1 ≤ 10 ∧ ∃ pos, (r.1, pos) ∈ scanMarkers text := by
  rw [pretty_print_projects] at hr
  rcases List.mem_map.mp hr with ⟨rec, hrec, hreq⟩
  rcases buildRecords_mem text (projectPositions text) rec hrec with ⟨pos, hpos⟩
  rw [projectPositions] at hpos
  have hmem := List.mem_filter.mp hpos
  have hbounds : 1 ≤ rec.1 ∧ rec.1 ≤ 10 := by
    have := hmem.2
    simp only [Bool.and_eq_true, decide_eq_true_eq] at this
    exact this
  have hfst : r.1 = rec.1 := by rw [← hreq]
  rw [hfst]
  exact ⟨hbounds.1, hbounds.2, pos, hmem.1⟩

theorem c8_record_markers_witness :
    1 ≤ (1, ([] : List (List Char × List Char))).1 ∧
      (1, ([] : List (List Char × List Char))).1 ≤ 10 ∧
      ∃ pos, ((1, ([] : List (List Char × List Char))).1, pos) ∈
        scanMarkers "ИДЕЯ 1: x".data :=
  c8_record_markers "ИДЕЯ 1: x".data (1, []) (by decide)

/-- C9: the Cerebras section-splitting variant emits a (header, body) pair
only when the trimmed body is non-empty, whereas the Gemini variant emits
the pair even when the trimmed body is empty: on a text whose first header
is followed only by whitespace before the next header, the Gemini loop
emits the first header with an empty body while the Cerebras loop emits no
pair at all for that header. -/
theorem c9_empty_body_divergence :
    (∀ (text : List Char) (hs : List (List Char)) (s : Nat)
        (p : List Char × List Char), p ∈ cerebrasSplitAux text hs s → p.2 ≠ []) ∧
      ("Техническое описание:".data, ([] : List Char)) ∈
        generate_projects_split
          "Техническое описание:\nНеобходимые технологии и библиотеки:\nx".data ∧
      ∀ b, ("Техническое описание:".data, b) ∉
        cerebrasSplitAux
          "Техническое описание:\nНеобходимые технологии и библиотеки:\nx".data
          cerebrasSections 0 := by
  refine ⟨?_, by decide, ?_⟩
  · intro text hs
    induction hs with
    | nil => intro s p hp; simp [cerebrasSplitAux] at hp
    | cons h rest ih =>
      intro s p hp
      cases hfind : pyFind text h s with
      | none =>
        rw [cerebrasSplitAux, hfind] at hp
        exact ih s p hp
      | some pos =>
        simp only [cerebrasSplitAux, hfind] at hp
        split at hp
        · exact ih _ p hp
        · rename_i hc
          rcases List.mem_cons.mp hp with hhead | htail
          · subst hhead
            exact hc
          · exact ih _ p htail
  · intro b hb
    have hcomp : cerebrasSplitAux
        "Техническое описание:\nНеобходимые технологии и библиотеки:\nx".data
        cerebrasSections 0 =
        [("Необходимые технологии и библиотеки:".data, "x".data)] := by decide
    rw [hcomp, List.mem_singleton] at hb
    have hfst : "Техническое описание:".data =
        "Необходимые технологии и библиотеки:".data := congrArg Prod.fst hb
    exact absurd hfst (by decide)

theorem c9_empty_body_divergence_witness :
    ("x".data ≠ ([] : List Char)) ∧
      ("Техническое описание:".data, ([] : List Char)) ∈
        generate_projects_split
          "Техническое описание:\nНеобходимые технологии и библиотеки:\nx".data :=
  ⟨c9_empty_body_divergence.1
      "Техническое описание:\nНеобходимые технологии и библиотеки:\nx".data
      cerebrasSections 0
      ("Необходимые технологии и библиотеки:".data, "x".data) (by decide),
   c9_empty_body_divergence.2.1⟩


/-! ## C6: build-then-extract round trip -/

/-- Concatenate (header, body) pairs into one document, each body directly
after its header. -/
def buildDoc : List (List Char × List Char) → List Char
  | [] => []
  | (h, b) :: rest => h ++ b ++ buildDoc rest

/-- The `next_pos` computation of the loop body: the position of the next
header in the list searched from `pos`, or the end of the text. -/
def nextBound (text : List Char) (rest : List (List Char)) (pos : Nat) : Nat :=
  match rest with
  | [] => text.length
  | nh :: _ =>
    match pyFind text nh pos with
    | none => text.length
    | some q => q

theorem extractAux_cons_found (text h : List Char) (hs : List (List Char)) (s pos : Nat)
    (hfind : pyFind text h s = some pos) :
    extractAux text (h :: hs) s =
      (h, pyStrip (pySlice text (pos + h.length) (nextBound text hs pos))) ::
        extractAux text hs (nextBound text hs pos) := by
  rw [extractAux, hfind]
  rfl

theorem nextBound_nil (text : List Char) (pos : Nat) :
    nextBound text [] pos = text.length := rfl

theorem nextBound_cons_found (text nh : List Char) (tl : List (List Char)) (pos q : Nat)
    (hfind : pyFind text nh pos = some q) : nextBound text (nh :: tl) pos = q := by
  rw [nextBound, hfind]

theorem occursAt_here (pre pat tail : List Char) :
    occursAt (pre ++ (pat ++ tail)) pat pre.length := by
  constructor
  · simp [List.length_append]
  · rw [List.drop_left' (show pre.length = pre.length from rfl), List.take_left]

theorem pySlice_middle (pre mid tail : List Char) :
    pySlice (pre ++ (mid ++ tail)) pre.length (pre.length + mid.length) = mid := by
  rw [pySlice, show pre ++ (mid ++ tail) = (pre ++ mid) ++ tail from
    (List.append_assoc pre mid tail).symm]
  rw [List.take_left' (by simp), List.drop_left' rfl]

theorem pySlice_to_end (pre mid : List Char) :
    pySlice (pre ++ mid) pre.length (pre ++ mid).length = mid := by
  rw [pySlice, List.take_length, List.drop_left' rfl]

/-- The induction behind C6: if the document is a prefix `pre` followed by
the built pairs and every header occurs exactly once in the document, then
the loop started at cursor `pre.length` recovers each header with its body
trimmed. -/
theorem extractAux_buildDoc (doc : List Char) :
    ∀ (pairs : List (List Char × List Char)) (pre : List Char),
      doc = pre ++ buildDoc pairs →
      (∀ p ∈ pairs, occCount doc p.1 = 1) →
      extractAux doc (pairs.map Prod.fst) pre.length =
        pairs.map (fun p => (p.1, pyStrip p.2)) := by
  intro pairs
  induction pairs with
  | nil =>
    intro pre hdoc huniq
    simp [extractAux]
  | cons hb rest ih =>
    intro pre hdoc huniq
    obtain ⟨h, b⟩ := hb
    simp only [buildDoc, List.append_assoc] at hdoc
    have hocc : occursAt doc h pre.length := by
      rw [hdoc]
      exact occursAt_here pre h (b ++ buildDoc rest)
    have huh : occCount doc h = 1 := huniq (h, b) (List.mem_cons_self _ _)
    obtain ⟨i, hfind⟩ := pyFind_isSome hocc (Nat.le_refl pre.length)
    have hieq : i = pre.length :=
      occursAt_unique huh i pre.length (pyFind_sound hfind).2 hocc
    subst hieq
    simp only [List.map_cons]
    rw [extractAux_cons_found doc h (rest.map Prod.fst) pre.length pre.length hfind]
    match rest with
    | [] =>
      simp only [List.map_nil, nextBound_nil]
      have hd2 : doc = (pre ++ h) ++ b := by
        rw [hdoc]
        simp [buildDoc, List.append_assoc]
      rw [show pre.length + h.length = (pre ++ h).length by simp only [List.length_append]]
      rw [hd2, pySlice_to_end]
      simp [extractAux]
    | (h₂, b₂) :: rest₂ =>
      simp only [List.map_cons]
      have hocc₂ : occursAt doc h₂ (pre.length + h.length + b.length) := by
        have h0 := occursAt_here (pre ++ h ++ b) h₂ (b₂ ++ buildDoc rest₂)
        have hlen : (pre ++ h ++ b).length = pre.length + h.length + b.length := by
          simp only [List.length_append]
        have hdoc₂ : doc = (pre ++ h ++ b) ++ (h₂ ++ (b₂ ++ buildDoc rest₂)) := by
          rw [hdoc]
          simp [buildDoc, List.append_assoc]
        rw [hdoc₂, ← hlen]
        exact h0
      have huh₂ : occCount doc h₂ = 1 :=
        huniq (h₂, b₂) (List.mem_cons_of_mem _ (List.mem_cons_self _ _))
      obtain ⟨j, hfind₂⟩ := @pyFind_isSome doc h₂ pre.length
        (pre.length + h.length + b.length) hocc₂ (by omega)
      have hjeq : j = pre.length + h.length + b.length :=
        occursAt_unique huh₂ j _ (pyFind_sound hfind₂).2 hocc₂
      subst hjeq
      rw [nextBound_cons_found doc h₂ (rest₂.map Prod.fst) pre.length
        (pre.length + h.length + b.length) hfind₂]
      have hslice : pySlice doc (pre.length + h.length)
          (pre.length + h.length + b.length) = b := by
        have h0 := pySlice_middle (pre ++ h) b (h₂ ++ (b₂ ++ buildDoc rest₂))
        have hlen2 : (pre ++ h).length = pre.length + h.length := by
          simp only [List.length_append]
        have hdoc₃ : doc = (pre ++ h) ++ (b ++ (h₂ ++ (b₂ ++ buildDoc rest₂))) := by
          rw [hdoc]
          simp [buildDoc, List.append_assoc]
        rw [hdoc₃, ← hlen2]
        exact h0
      rw [hslice]
      have hrec := ih (pre ++ h ++ b)
        (by
          rw [hdoc]
          simp [buildDoc, List.append_assoc])
        (fun p hp => huniq p (List.mem_cons_of_mem _ hp))
      rw [show (pre ++ h ++ b).length = pre.length + h.length + b.length by
        simp only [List.length_append]] at hrec
      simp only [List.map_cons] at hrec
      rw [hrec]

/-- C6: when every header of the list occurs (exactly once) in the text, in
list order — i.e. the text is the in-order concatenation of each header
followed by its raw body — `extract` produces one entry per header whose
body is the text strictly between the end of that header literal and the
start of the next found header (end of text for the last), with surrounding
whitespace trimmed. -/
theorem c6_all_headers_found (pairs : List (List Char × List Char))
    (huniq : ∀ p ∈ pairs, occCount (buildDoc pairs) p.1 = 1) :
    extract (buildDoc pairs) (pairs.map Prod.fst) =
      pairs.map (fun p => (p.1, pyStrip p.2)) :=
  extractAux_buildDoc (buildDoc pairs) pairs [] rfl huniq

/-- The concrete end-to-end scenario of C6, an instance of
`c6_all_headers_found` at the four raw (header, body) pairs whose
concatenation is the scenario text. -/
theorem c6_all_headers_found_witness :
    extract
        "Technical description:\nFoo.\n\nTechnologies:\n- bar\n\nSteps:\n1. x\n\nComplexity:\neasy".data
        ["Technical description:".data, "Technologies:".data, "Steps:".data,
          "Complexity:".data] =
      [("Technical description:".data, "Foo.".data),
        ("Technologies:".data, "- bar".data),
        ("Steps:".data, "1. x".data),
        ("Complexity:".data, "easy".data)] := by
  have e1 : buildDoc
      [("Technical description:".data, "\nFoo.\n\n".data),
        ("Technologies:".data, "\n- bar\n\n".data),
        ("Steps:".data, "\n1. x\n\n".data),
        ("Complexity:".data, "\neasy".data)] =
      "Technical description:\nFoo.\n\nTechnologies:\n- bar\n\nSteps:\n1. x\n\nComplexity:\neasy".data := by
    decide
  have e2 : ([("Technical description:".data, "\nFoo.\n\n".data),
        ("Technologies:".data, "\n- bar\n\n".data),
        ("Steps:".data, "\n1. x\n\n".data),
        ("Complexity:".data, "\neasy".data)].map Prod.fst) =
      ["Technical description:".data, "Technologies:".data, "Steps:".data,
        "Complexity:".data] := by decide
  have e3 : ([("Technical description:".data, "\nFoo.\n\n".data),
        ("Technologies:".data, "\n- bar\n\n".data),
        ("Steps:".data, "\n1. x\n\n".data),
        ("Complexity:".data, "\neasy".data)].map (fun p => (p.1, pyStrip p.2))) =
      [("Technical description:".data, "Foo.".data),
        ("Technologies:".data, "- bar".data),
        ("Steps:".data, "1. x".data),
        ("Complexity:".data, "easy".data)] := by decide
  rw [← e1, ← e2, ← e3]
  exact c6_all_headers_found _ (by decide)

end AiWeek
